import Mathlib

/-!
Shallow embedding of quotegenerator.py: a quote store kept in a
line-delimited text file, with load/save/add/remove operations and a CLI
dispatcher.  Program strings are modelled as lists of characters and the
file system as an optional file content (none when the quotes file does
not exist).
-/

/-- Program strings, modelled as lists of characters. -/
abbrev Str := List Char

/-- A quote: a text together with an attributed author. -/
structure Quote where
  text : Str
  author : Str
  deriving DecidableEq

/-- Whitespace characters removed by Python str.strip. -/
def isWS (c : Char) : Bool :=
  c == ' ' || c == '\t' || c == '\n' || c == '\r' || c == '\x0b' || c == '\x0c'

/-- Python str.strip: remove leading and trailing whitespace. -/
def strip (s : Str) : Str :=
  ((s.dropWhile isWS).reverse.dropWhile isWS).reverse

/-- Python str.lower, applied character by character. -/
def lower (s : Str) : Str := s.map Char.toLower

/-- Python membership test of the bar character in a string. -/
def hasBar (s : Str) : Bool := s.any fun c => c == '|'

/-- Left component of Python split on the first bar with limit one. -/
def barLeft (s : Str) : Str := s.takeWhile fun c => c != '|'

/-- Right component of Python split on the first bar with limit one. -/
def barRight (s : Str) : Str := (s.dropWhile fun c => c != '|').tail

/-- Parse one stripped, non-blank chunk into a quote: lines 49 to 53 of
load_quotes, which are also lines 89 to 94 of add_quote.  The inner strips
mirror the text.strip() and author.strip() applied before appending. -/
def parseRaw (raw : Str) : Quote :=
  if hasBar raw then
    { text := strip (barLeft raw), author := strip (barRight raw) }
  else
    { text := strip raw, author := strip ("Unknown".data) }

/-- One iteration of the load loop, lines 45 to 53: strip the raw line,
skip it when blank, otherwise parse it. -/
def lineToQuote (line : Str) : Option Quote :=
  let raw := strip line
  if raw.isEmpty then none else some (parseRaw raw)

/-- Split file content into lines at newline characters, as Python file
iteration does (the trailing newline that iteration keeps on each line is
removed by the strip in lineToQuote either way). -/
def splitNl : Str → List Str
  | [] => [[]]
  | c :: cs =>
    if c = '\n' then [] :: splitNl cs
    else
      match splitNl cs with
      | [] => [[c]]
      | l :: ls => (c :: l) :: ls

/-- Quotes decoded from a file content, in file order: the loop body of
load_quotes, lines 44 to 54. -/
def parseQuotes (content : Str) : List Quote :=
  (splitNl content).filterMap lineToQuote

/-- The ten seed quotes, lines 20 to 31. -/
def DEFAULT_QUOTES : List Str := [
  "The best way to get started is to quit talking and begin doing.|Walt Disney".data,
  "Whether you think you can or you think you can’t, you’re right.|Henry Ford".data,
  "It always seems impossible until it’s done.|Nelson Mandela".data,
  "Stay hungry, stay foolish.|Steve Jobs".data,
  "You miss 100% of the shots you don’t take.|Wayne Gretzky".data,
  "If you’re going through hell, keep going.|Winston Churchill".data,
  "Dream big and dare to fail.|Norman Vaughan".data,
  "The secret of getting ahead is getting started.|Mark Twain".data,
  "Small steps every day.|Unknown".data,
  "Do one thing every day that scares you.|Eleanor Roosevelt".data]

/-- Content written when the quotes file is first created, lines 36 to 38:
each default line stripped, followed by a newline. -/
def defaultContent : Str := (DEFAULT_QUOTES.map fun l => strip l ++ ['\n']).flatten

/-- File system model: the content of the quotes file, when it exists. -/
abbrev FS := Option Str

/-- ensure_quotes_file, lines 33 to 38: create the quotes file with the
default quotes when it does not exist. -/
def ensure_quotes_file (fs : FS) : FS :=
  match fs with
  | none => some defaultContent
  | some c => some c

/-- load_quotes, lines 40 to 54: ensure the file exists, then decode it.
Returns the resulting file system together with the quote list. -/
def load_quotes (fs : FS) : FS × List Quote :=
  let fs2 := ensure_quotes_file fs
  (fs2, parseQuotes (fs2.getD []))

/-- The line save_quotes writes for one quote, before its newline:
lines 59 to 63. -/
def lineBody (q : Quote) : Str :=
  if q.author ≠ [] ∧ lower q.author ≠ "unknown".data then q.text ++ '|' :: q.author
  else q.text

/-- One full output line of save_quotes, newline included. -/
def serializeLine (q : Quote) : Str := lineBody q ++ ['\n']

/-- save_quotes, lines 56 to 63: the new file content written for a list. -/
def save_quotes : List Quote → Str
  | [] => []
  | q :: qs => serializeLine q ++ save_quotes qs

/-- Message printed by add_quote on blank input, line 87. -/
def emptyInputMsg : Str := "Provide a non-empty quote.".data

/-- Confirmation printed by add_quote, line 96. -/
def addedMsg : Str := "✅ Added.".data

/-- Message printed by remove_quote on a bad index, line 102: it shows the
valid range ending at the current list length. -/
def outOfRangeMsg (n : Nat) : Str :=
  "Index out of range. Must be 1..".data ++ Nat.toDigits 10 n

/-- Confirmation printed by remove_quote, line 106. -/
def removedMsg (q : Quote) : Str :=
  "🗑️ Removed: “".data ++ q.text ++ "” — ".data ++ q.author

/-- add_quote, lines 83 to 96: returns the new file system and the printed
message.  On blank input it returns before touching the file. -/
def add_quote (raw : Str) (fs : FS) : FS × Str :=
  let r := strip raw
  if r.isEmpty then (fs, emptyInputMsg)
  else
    let loaded := load_quotes fs
    (some (save_quotes (loaded.2 ++ [parseRaw r])), addedMsg)

/-- remove_quote, lines 98 to 106: returns the new file system and the
printed message.  Outside the range 1..length nothing is saved. -/
def remove_quote (index : Int) (fs : FS) : FS × Str :=
  let loaded := load_quotes fs
  let quotes := loaded.2
  if 1 ≤ index ∧ index ≤ (quotes.length : Int) then
    let removed := (quotes[index.toNat - 1]?).getD ⟨[], []⟩
    (some (save_quotes (quotes.eraseIdx (index.toNat - 1))), removedMsg removed)
  else
    (loaded.1, outOfRangeMsg quotes.length)

/-- The five operations main can select, lines 116 to 130. -/
inductive Op where
  | opAdd | opRemove | opList | opCount | opRandom
  deriving DecidableEq

/-- Invocation arguments as argparse produces them, lines 109 to 114. -/
structure Args where
  add : Option Str
  remove : Option Int
  list : Bool
  count : Bool

/-- Python truthiness of an optional string, as tested on args.add. -/
def truthyOptStr : Option Str → Bool
  | none => false
  | some s => !s.isEmpty

/-- The operation main selects, lines 116 to 130: args.add is tested for
truthiness, args.remove for not being None. -/
def selectOp (a : Args) : Op :=
  if truthyOptStr a.add then Op.opAdd
  else if a.remove.isSome then Op.opRemove
  else if a.list then Op.opList
  else if a.count then Op.opCount
  else Op.opRandom

/-- The add flag counted as present: given with a non-empty argument. -/
def addGiven (a : Args) : Prop := ∃ s, a.add = some s ∧ s ≠ []

/-- Follows the spec wording for load: split each non-blank trimmed line on
the FIRST bar when one is present, the left part trimmed being the text and
the right part trimmed the author; with no bar the whole trimmed line is
the text and the author is Unknown. -/
def splitFirstBar : Str → Option (Str × Str)
  | [] => none
  | c :: cs =>
    if c = '|' then some ([], cs)
    else
      match splitFirstBar cs with
      | none => none
      | some p => some (c :: p.1, p.2)

/-- Follows the spec wording for load, built on splitFirstBar. -/
def loadSpecModel (content : Str) : List Quote :=
  (splitNl content).filterMap fun line =>
    let trimmed := strip line
    if trimmed = [] then none
    else
      match splitFirstBar trimmed with
      | some p => some { text := strip p.1, author := strip p.2 }
      | none => some { text := trimmed, author := "Unknown".data }

/-- Follows the spec wording for save: text, bar, author when the author is
present and not case-insensitively Unknown, otherwise just the text. -/
def saveLineSpec (q : Quote) : Str :=
  (if q.author ≠ [] ∧ lower q.author ≠ lower ("Unknown".data) then q.text ++ '|' :: q.author
   else q.text) ++ ['\n']

/-- Follows the spec wording for save: one line per quote, in order. -/
def saveSpecModel (qs : List Quote) : Str := (qs.map saveLineSpec).flatten

/-- Well-formedness under which the storage format round-trips: both fields
trimmed and non-empty, no newline in either field, no bar in the text, and
an author that lowercases to unknown is exactly Unknown. -/
def WF (q : Quote) : Prop :=
  strip q.text = q.text ∧ q.text ≠ [] ∧ ('\n' ∉ q.text) ∧ ('|' ∉ q.text) ∧
  strip q.author = q.author ∧ q.author ≠ [] ∧ ('\n' ∉ q.author) ∧
  (lower q.author = "unknown".data → q.author = "Unknown".data)

/-- The well-formedness the round-trip claim asks for: both fields
non-empty after trimming and free of embedded newlines. -/
def wfClaim (q : Quote) : Prop :=
  strip q.text ≠ [] ∧ strip q.author ≠ [] ∧ ('\n' ∉ q.text) ∧ ('\n' ∉ q.author)

instance (q : Quote) : Decidable (WF q) := by
  unfold WF
  infer_instance

instance (q : Quote) : Decidable (wfClaim q) := by
  unfold wfClaim
  infer_instance

/-- The ten default quotes as load_quotes decodes them. -/
def DEFAULT_PARSED : List Quote := [
  ⟨"The best way to get started is to quit talking and begin doing.".data, "Walt Disney".data⟩,
  ⟨"Whether you think you can or you think you can’t, you’re right.".data, "Henry Ford".data⟩,
  ⟨"It always seems impossible until it’s done.".data, "Nelson Mandela".data⟩,
  ⟨"Stay hungry, stay foolish.".data, "Steve Jobs".data⟩,
  ⟨"You miss 100% of the shots you don’t take.".data, "Wayne Gretzky".data⟩,
  ⟨"If you’re going through hell, keep going.".data, "Winston Churchill".data⟩,
  ⟨"Dream big and dare to fail.".data, "Norman Vaughan".data⟩,
  ⟨"The secret of getting ahead is getting started.".data, "Mark Twain".data⟩,
  ⟨"Small steps every day.".data, "Unknown".data⟩,
  ⟨"Do one thing every day that scares you.".data, "Eleanor Roosevelt".data⟩]

/-- A dropWhile that keeps the length keeps the list. -/
theorem dropWhile_eq_self_of_len (p : Char → Bool) (l : Str)
    (h : (l.dropWhile p).length = l.length) : l.dropWhile p = l :=
  (List.dropWhile_sublist p).eq_of_length h

/-- The head of a list unchanged by dropWhile falsifies the predicate. -/
theorem head_false_of_dropWhile_self (p : Char → Bool) (c : Char) (t : Str)
    (h : (c :: t).dropWhile p = c :: t) : p c = false := by
  have hne : (c :: t).dropWhile p ≠ [] := by rw [h]; exact List.cons_ne_nil c t
  have hh := List.head_dropWhile_not p (c :: t) hne
  simp only [h, List.head_cons] at hh
  exact hh

/-- dropWhile keeps a concatenation whose left part it already keeps. -/
theorem dropWhile_append_self (p : Char → Bool) (l r : Str) (hl : l ≠ [])
    (h : l.dropWhile p = l) : (l ++ r).dropWhile p = l ++ r := by
  cases l with
  | nil => exact absurd rfl hl
  | cons c t =>
    have hc := head_false_of_dropWhile_self p c t h
    simp [List.dropWhile_cons, hc]

/-- A string equal to its strip is kept by dropWhile on both ends. -/
theorem strip_parts (s : Str) (h : strip s = s) :
    s.dropWhile isWS = s ∧ s.reverse.dropWhile isWS = s.reverse := by
  unfold strip at h
  have h2 : (s.dropWhile isWS).reverse.dropWhile isWS = s.reverse := by
    have h3 := congrArg List.reverse h
    rwa [List.reverse_reverse] at h3
  have hlen : (s.dropWhile isWS).length = s.length := by
    have e1 := congrArg List.length h2
    have le1 := (List.dropWhile_sublist (l := (s.dropWhile isWS).reverse) isWS).length_le
    have le2 := (List.dropWhile_sublist (l := s) isWS).length_le
    simp only [List.length_reverse] at e1 le1
    omega
  have hu : s.dropWhile isWS = s := dropWhile_eq_self_of_len _ _ hlen
  rw [hu] at h2
  exact ⟨hu, h2⟩

/-- The converse direction: both one-sided conditions give strip s = s. -/
theorem strip_of_parts (s : Str) (h1 : s.dropWhile isWS = s)
    (h2 : s.reverse.dropWhile isWS = s.reverse) : strip s = s := by
  unfold strip
  rw [h1, h2, List.reverse_reverse]

/-- strip keeps the concatenation of a trimmed non-empty text, a bar, and
a trimmed non-empty author. -/
theorem strip_text_bar_author (t a : Str) (ht : strip t = t) (ht0 : t ≠ [])
    (ha : strip a = a) (ha0 : a ≠ []) :
    strip (t ++ '|' :: a) = t ++ '|' :: a := by
  obtain ⟨t1, _⟩ := strip_parts t ht
  obtain ⟨_, a2⟩ := strip_parts a ha
  apply strip_of_parts
  · exact dropWhile_append_self isWS t ('|' :: a) ht0 t1
  · rw [List.reverse_append, List.reverse_cons, List.append_assoc]
    exact dropWhile_append_self isWS a.reverse (['|'] ++ t.reverse)
      (by simpa using ha0) a2

/-- takeWhile up to the first bar recovers the part before it. -/
theorem takeWhile_bar (t a : Str) (h : '|' ∉ t) :
    ((t ++ '|' :: a).takeWhile fun c => c != '|') = t := by
  induction t with
  | nil => simp
  | cons c t ih =>
    have hc : c ≠ '|' := fun e => h (by simp [e])
    have h2 : '|' ∉ t := fun m => h (List.mem_cons_of_mem c m)
    simp only [List.cons_append]
    rw [List.takeWhile_cons_of_pos (by simp [hc]), ih h2]

/-- dropWhile up to the first bar recovers the bar and what follows it. -/
theorem dropWhile_bar (t a : Str) (h : '|' ∉ t) :
    ((t ++ '|' :: a).dropWhile fun c => c != '|') = '|' :: a := by
  induction t with
  | nil => simp
  | cons c t ih =>
    have hc : c ≠ '|' := fun e => h (by simp [e])
    have h2 : '|' ∉ t := fun m => h (List.mem_cons_of_mem c m)
    simp only [List.cons_append]
    rw [List.dropWhile_cons_of_pos (by simp [hc]), ih h2]

/-- A string with a bar spliced in tests positive for hasBar. -/
theorem hasBar_append_bar (t a : Str) : hasBar (t ++ '|' :: a) = true := by
  simp [hasBar]

/-- A string without a bar tests negative for hasBar. -/
theorem hasBar_eq_false (t : Str) (h : '|' ∉ t) : hasBar t = false := by
  simp only [hasBar, List.any_eq_false, beq_iff_eq]
  exact fun x hx e => h (e ▸ hx)

/-- strip does not change the Unknown literal. -/
theorem strip_unknown_lit : strip ("Unknown".data) = "Unknown".data := by decide

/-- splitNl peels off a newline-free line followed by a newline. -/
theorem splitNl_line (s t : Str) (h : '\n' ∉ s) :
    splitNl (s ++ '\n' :: t) = s :: splitNl t := by
  induction s with
  | nil => simp [splitNl]
  | cons c cs ih =>
    have hc : c ≠ '\n' := fun e => h (by simp [e])
    have h2 : '\n' ∉ cs := fun m => h (List.mem_cons_of_mem c m)
    simp only [List.cons_append, splitNl, if_neg hc]
    rw [show cs.append ('\n' :: t) = cs ++ '\n' :: t from rfl, ih h2]

/-- Claim C9: ensure_quotes_file never overwrites an existing file, so
calling it twice leaves the same content as calling it once. -/
theorem ensure_idempotent_on_existing (c : Str) :
    ensure_quotes_file (some c) = some c ∧
    ensure_quotes_file (ensure_quotes_file (some c)) = ensure_quotes_file (some c) :=
  ⟨rfl, rfl⟩

/-- Claim C10: a stored line with only whitespace before its first bar
loads as a quote whose text is empty, hence empty after trimming as well,
violating the data model requirement of non-empty text. -/
theorem load_empty_text_line :
    (load_quotes (some (" |Someone\n".data))).2 = [⟨[], "Someone".data⟩] ∧
    strip (⟨[], "Someone".data⟩ : Quote).text = [] := by
  decide

/-- Claim C2 as stated is false: the ninth default quote has author
Unknown. -/
theorem default_author_unknown_exists :
    ¬ (∀ q ∈ (load_quotes none).2, q.author ≠ "Unknown".data) := by
  decide

set_option maxRecDepth 20000 in
/-- Claim C2 (amended): with no storage file, the first load returns the
ten default quotes in their fixed order and creates the file containing
those same ten entries, each line in text-bar-author form; exactly one
default, the ninth, has author Unknown. -/
theorem fresh_load_defaults :
    load_quotes none = (some defaultContent, DEFAULT_PARSED) ∧
    DEFAULT_PARSED.length = 10 ∧
    (∀ l ∈ DEFAULT_QUOTES, hasBar (strip l) = true) ∧
    (DEFAULT_PARSED.filter fun q => q.author == "Unknown".data).length = 1 ∧
    DEFAULT_PARSED[8]? = some ⟨"Small steps every day.".data, "Unknown".data⟩ := by
  decide

/-- A well-formed quote's line body contains no newline. -/
theorem nl_not_mem_lineBody (q : Quote) (h : WF q) : '\n' ∉ lineBody q := by
  obtain ⟨_, _, hnt, _, _, _, hna, _⟩ := h
  unfold lineBody
  split
  · intro m
    rcases List.mem_append.mp m with m1 | m2
    · exact hnt m1
    · rcases List.mem_cons.mp m2 with e | m3
      · exact absurd e (by decide)
      · exact hna m3
  · exact hnt

/-- The line body written for a well-formed quote decodes back to it. -/
theorem lineToQuote_lineBody (q : Quote) (h : WF q) :
    lineToQuote (lineBody q) = some q := by
  obtain ⟨ht, ht0, _, htb, ha, ha0, _, hu⟩ := h
  unfold lineBody
  by_cases hc : q.author ≠ [] ∧ lower q.author ≠ "unknown".data
  · rw [if_pos hc]
    have hs : strip (q.text ++ '|' :: q.author) = q.text ++ '|' :: q.author :=
      strip_text_bar_author _ _ ht ht0 ha ha0
    have hne : (q.text ++ '|' :: q.author).isEmpty = false := by
      cases hx : q.text with
      | nil => exact absurd hx ht0
      | cons a b => rfl
    simp only [lineToQuote, hs, hne, Bool.false_eq_true, if_false, parseRaw,
      hasBar_append_bar, if_true, barLeft, barRight]
    rw [takeWhile_bar _ _ htb, dropWhile_bar _ _ htb, List.tail_cons, ht, ha]
  · rw [if_neg hc]
    have hau : q.author = "Unknown".data := by
      rcases not_and_or.mp hc with h1 | h2
      · exact absurd (not_not.mp h1) ha0
      · exact hu (not_not.mp h2)
    have hne : q.text.isEmpty = false := by
      cases hx : q.text with
      | nil => exact absurd hx ht0
      | cons a b => rfl
    have hnb : hasBar q.text = false := hasBar_eq_false _ htb
    simp only [lineToQuote, ht, hne, Bool.false_eq_true, if_false, parseRaw, hnb]
    show some ⟨q.text, strip ("Unknown".data)⟩ = some q
    rw [strip_unknown_lit, ← hau]

/-- parseQuotes peels off one serialized well-formed quote. -/
theorem parseQuotes_cons (q : Quote) (rest : Str) (h : WF q) :
    parseQuotes (serializeLine q ++ rest) = q :: parseQuotes rest := by
  unfold parseQuotes serializeLine
  rw [List.append_assoc, List.singleton_append,
    splitNl_line _ _ (nl_not_mem_lineBody q h), List.filterMap_cons_some (lineToQuote_lineBody q h)]

/-- Saving then parsing restores any list of well-formed quotes. -/
theorem parseQuotes_save_quotes (L : List Quote) (h : ∀ q ∈ L, WF q) :
    parseQuotes (save_quotes L) = L := by
  induction L with
  | nil => rfl
  | cons q qs ih =>
    rw [show save_quotes (q :: qs) = serializeLine q ++ save_quotes qs from rfl,
      parseQuotes_cons q _ (h q (List.mem_cons_self q qs)),
      ih fun r hr => h r (List.mem_cons_of_mem q hr)]

/-- Claim C1 as stated is false: a text containing a bar satisfies the
claim's well-formedness (fields non-empty after trimming, no newline) yet
does not round-trip, because load splits each line at its first bar. -/
theorem roundtrip_fails_on_bar_in_text :
    wfClaim ⟨"a|b".data, "c".data⟩ ∧
    (load_quotes (some (save_quotes [⟨"a|b".data, "c".data⟩]))).2 ≠
      [⟨"a|b".data, "c".data⟩] := by
  decide

/-- Claim C1 (amended): for every list of quotes whose fields are trimmed
and non-empty, contain no newline, whose text contains no bar, and whose
author is exactly Unknown whenever it lowercases to unknown, saving the
list and loading it back yields exactly the same list, field for field. -/
theorem roundtrip_well_formed (L : List Quote) (h : ∀ q ∈ L, WF q) :
    (load_quotes (some (save_quotes L))).2 = L := by
  simpa [load_quotes, ensure_quotes_file] using parseQuotes_save_quotes L h

/-- Witness for the amended round trip at a concrete one-quote list. -/
theorem roundtrip_well_formed_witness :
    (load_quotes (some (save_quotes
      [⟨"Stay hungry, stay foolish.".data, "Steve Jobs".data⟩]))).2 =
      [⟨"Stay hungry, stay foolish.".data, "Steve Jobs".data⟩] :=
  roundtrip_well_formed [⟨"Stay hungry, stay foolish.".data, "Steve Jobs".data⟩]
    (by decide)

/-- Claim C4: add_quote on input that is blank after trimming, the empty
string included, prints the non-empty-quote message, aborts, and leaves
the file system untouched. -/
theorem add_quote_empty_input (raw : Str) (fs : FS) (h : strip raw = []) :
    add_quote raw fs = (fs, emptyInputMsg) := by
  simp [add_quote, h]

/-- Witness for the blank-input add at a concrete whitespace input. -/
theorem add_quote_empty_input_witness :
    add_quote ("   ".data) none = (none, emptyInputMsg) :=
  add_quote_empty_input ("   ".data) none (by decide)

/-- Claim C5: remove_quote with an index outside 1..length of the loaded
list prints the range message built from the current length and leaves the
existing file exactly as it was, writing nothing. -/
theorem remove_quote_out_of_range (content : Str) (i : Int)
    (h : ¬(1 ≤ i ∧ i ≤ ((parseQuotes content).length : Int))) :
    remove_quote i (some content) =
      (some content, outOfRangeMsg (parseQuotes content).length) := by
  simp only [remove_quote, load_quotes, ensure_quotes_file, Option.getD_some]
  rw [if_neg h]

/-- Witness for the out-of-range removal at index zero on a one-quote
file. -/
theorem remove_quote_out_of_range_witness :
    remove_quote 0 (some ("a|b\n".data)) =
      (some ("a|b\n".data), outOfRangeMsg (parseQuotes ("a|b\n".data)).length) :=
  remove_quote_out_of_range ("a|b\n".data) 0 (by decide)

/-- Claim C6 as stated is false: removing the first of two equal quotes
leaves the quote formerly at that position still present in the reloaded
list, although the claim requires it absent. -/
theorem remove_duplicate_still_present :
    wfClaim ⟨"a".data, "b".data⟩ ∧
    (⟨"a".data, "b".data⟩ : Quote) ∈
      (load_quotes ((remove_quote 1 (some (save_quotes
        [⟨"a".data, "b".data⟩, ⟨"a".data, "b".data⟩]))).1)).2 := by
  decide

/-- Claim C6 (amended): for a list of well-formed quotes and a valid index
i in 1..length, remove_quote saves the list with the entry at position i
removed; the saved content reloads to exactly that list, whose length is
one less and which keeps the remaining quotes in their relative order (it
is the prefix before position i followed by the suffix after it). -/
theorem remove_quote_valid_index (L : List Quote) (i : Int)
    (hw : ∀ q ∈ L, WF q) (h1 : 1 ≤ i) (h2 : i ≤ (L.length : Int)) :
    (remove_quote i (some (save_quotes L))).1 =
      some (save_quotes (L.eraseIdx (i.toNat - 1))) ∧
    (load_quotes ((remove_quote i (some (save_quotes L))).1)).2 =
      L.eraseIdx (i.toNat - 1) ∧
    (L.eraseIdx (i.toNat - 1)).length = L.length - 1 ∧
    L.eraseIdx (i.toNat - 1) = L.take (i.toNat - 1) ++ L.drop i.toNat := by
  have hL : parseQuotes (save_quotes L) = L := parseQuotes_save_quotes L hw
  have hmain : remove_quote i (some (save_quotes L)) =
      (some (save_quotes (L.eraseIdx (i.toNat - 1))),
        removedMsg ((L[i.toNat - 1]?).getD ⟨[], []⟩)) := by
    simp only [remove_quote, load_quotes, ensure_quotes_file, Option.getD_some, hL]
    rw [if_pos ⟨h1, h2⟩]
  have hw2 : ∀ q ∈ L.eraseIdx (i.toNat - 1), WF q :=
    fun q hq => hw q (List.mem_of_mem_eraseIdx hq)
  have hlt : i.toNat - 1 < L.length := by omega
  refine ⟨by rw [hmain], ?_, ?_, ?_⟩
  · rw [hmain]
    simpa [load_quotes, ensure_quotes_file] using
      parseQuotes_save_quotes (L.eraseIdx (i.toNat - 1)) hw2
  · exact List.length_eraseIdx_of_lt hlt
  · rw [List.eraseIdx_eq_take_drop_succ]
    have he : i.toNat - 1 + 1 = i.toNat := by omega
    rw [he]

/-- Witness for the valid-index removal: removing index one of a two-quote
file leaves exactly the second quote. -/
theorem remove_quote_valid_index_witness :
    (load_quotes ((remove_quote 1 (some (save_quotes
      [⟨"a".data, "b".data⟩, ⟨"c".data, "d".data⟩]))).1)).2 =
      [⟨"c".data, "d".data⟩] := by
  have h := remove_quote_valid_index
    [⟨"a".data, "b".data⟩, ⟨"c".data, "d".data⟩] 1 (by decide) (by decide) (by decide)
  rw [h.2.1]
  decide

/-- Claim C3 as stated is false: with the add flag present but carrying
the empty string, main treats it as absent (Python truthiness) and
dispatches to remove instead of add. -/
theorem dispatch_empty_add_breaks_precedence :
    (Args.mk (some []) (some 1) false false).add.isSome = true ∧
    selectOp (Args.mk (some []) (some 1) false false) ≠ Op.opAdd ∧
    selectOp (Args.mk (some []) (some 1) false false) = Op.opRemove := by
  decide

/-- Claim C3 (amended): main selects exactly one operation, with the
precedence add, remove, list, count, random, where the add flag counts as
given only when its string argument is non-empty (an empty-string add
argument is treated as if the flag were absent), and random is selected
when no flag is given. -/
theorem dispatch_precedence (a : Args) :
    (addGiven a → selectOp a = Op.opAdd) ∧
    (¬addGiven a → a.remove.isSome = true → selectOp a = Op.opRemove) ∧
    (¬addGiven a → a.remove = none → a.list = true → selectOp a = Op.opList) ∧
    (¬addGiven a → a.remove = none → a.list = false → a.count = true →
      selectOp a = Op.opCount) ∧
    (¬addGiven a → a.remove = none → a.list = false → a.count = false →
      selectOp a = Op.opRandom) := by
  have htr : truthyOptStr a.add = true ↔ addGiven a := by
    cases h : a.add with
    | none => simp [truthyOptStr, addGiven, h]
    | some s => simp [truthyOptStr, addGiven, h, List.isEmpty_iff]
  refine ⟨?_, ?_, ?_, ?_, ?_⟩
  · intro hg
    simp [selectOp, htr.mpr hg]
  · intro hng hr
    have hf : truthyOptStr a.add = false := by
      cases hb : truthyOptStr a.add
      · rfl
      · exact absurd (htr.mp hb) hng
    simp [selectOp, hf, hr]
  · intro hng hr hl
    have hf : truthyOptStr a.add = false := by
      cases hb : truthyOptStr a.add
      · rfl
      · exact absurd (htr.mp hb) hng
    simp [selectOp, hf, hr, hl]
  · intro hng hr hl hc
    have hf : truthyOptStr a.add = false := by
      cases hb : truthyOptStr a.add
      · rfl
      · exact absurd (htr.mp hb) hng
    simp [selectOp, hf, hr, hl, hc]
  · intro hng hr hl hc
    have hf : truthyOptStr a.add = false := by
      cases hb : truthyOptStr a.add
      · rfl
      · exact absurd (htr.mp hb) hng
    simp [selectOp, hf, hr, hl, hc]

/-- Witness for the amended precedence: with every flag given and a
non-empty add argument, add wins. -/
theorem dispatch_precedence_witness :
    selectOp (Args.mk (some ("x".data)) (some 2) true true) = Op.opAdd :=
  (dispatch_precedence (Args.mk (some ("x".data)) (some 2) true true)).1
    ⟨"x".data, rfl, by decide⟩

/-- dropWhile is idempotent. -/
theorem dropWhile_idem (p : Char → Bool) (l : Str) :
    (l.dropWhile p).dropWhile p = l.dropWhile p := by
  induction l with
  | nil => rfl
  | cons c t ih =>
    by_cases h : p c
    · rw [List.dropWhile_cons_of_pos h]
      exact ih
    · rw [List.dropWhile_cons_of_neg h, List.dropWhile_cons_of_neg h]

/-- The optional head of a dropWhile result falsifies the predicate. -/
theorem head?_dropWhile_false (p : Char → Bool) (l : Str) (c : Char)
    (h : (l.dropWhile p).head? = some c) : p c = false := by
  have h2 := List.head?_dropWhile_not p l
  rw [h] at h2
  exact h2

/-- dropWhile keeps the last element of a list it does not empty. -/
theorem getLast?_dropWhile (p : Char → Bool) (l : Str)
    (h : l.dropWhile p ≠ []) : (l.dropWhile p).getLast? = l.getLast? := by
  induction l with
  | nil => exact absurd rfl h
  | cons c t ih =>
    by_cases hp : p c
    · rw [List.dropWhile_cons_of_pos hp] at h ⊢
      have ht : t ≠ [] := by
        intro e
        rw [e] at h
        exact h rfl
      rw [ih h]
      cases t with
      | nil => exact absurd rfl ht
      | cons b t2 => rw [List.getLast?_cons_cons]
    · rw [List.dropWhile_cons_of_neg hp]

/-- A list whose optional head never satisfies the predicate is kept by
dropWhile. -/
theorem dropWhile_of_head?_false (p : Char → Bool) (l : Str)
    (h : ∀ c, l.head? = some c → p c = false) : l.dropWhile p = l := by
  cases l with
  | nil => rfl
  | cons c t => exact List.dropWhile_cons_of_neg (by simp [h c rfl])

/-- strip is idempotent. -/
theorem strip_idem (s : Str) : strip (strip s) = strip s := by
  cases hv : (s.dropWhile isWS).reverse.dropWhile isWS with
  | nil =>
    have h0 : strip s = [] := by
      unfold strip
      rw [hv]
      rfl
    rw [h0]
    rfl
  | cons c0 v2 =>
    have hsv : strip s = (c0 :: v2).reverse := by
      unfold strip
      rw [hv]
    rw [hsv]
    apply strip_of_parts
    · apply dropWhile_of_head?_false
      intro c hc
      rw [List.head?_reverse] at hc
      rw [← hv] at hc
      have hvne : (s.dropWhile isWS).reverse.dropWhile isWS ≠ [] := by
        rw [hv]
        exact List.cons_ne_nil c0 v2
      rw [getLast?_dropWhile isWS _ hvne, List.getLast?_reverse] at hc
      exact head?_dropWhile_false isWS s c hc
    · rw [List.reverse_reverse, ← hv]
      exact dropWhile_idem isWS _

/-- splitFirstBar finds no bar only when there is none. -/
theorem splitFirstBar_none (s : Str) : splitFirstBar s = none → '|' ∉ s := by
  induction s with
  | nil =>
    intro _
    simp
  | cons c cs ih =>
    intro h hm
    unfold splitFirstBar at h
    by_cases hc : c = '|'
    · rw [if_pos hc] at h
      exact Option.noConfusion h
    · rw [if_neg hc] at h
      rcases List.mem_cons.mp hm with e | m
      · exact hc e.symm
      · cases hsp : splitFirstBar cs with
        | none => exact ih hsp m
        | some p =>
          rw [hsp] at h
          exact Option.noConfusion h

/-- What splitFirstBar returns is the split of the string at its first
bar: the string is left part, bar, right part, with no bar on the left. -/
theorem splitFirstBar_some (s : Str) : ∀ l r : Str,
    splitFirstBar s = some (l, r) → s = l ++ '|' :: r ∧ '|' ∉ l := by
  induction s with
  | nil =>
    intro l r h
    exact Option.noConfusion h
  | cons c cs ih =>
    intro l r h
    unfold splitFirstBar at h
    by_cases hc : c = '|'
    · rw [if_pos hc] at h
      injection h with h2
      injection h2 with hl hr
      subst hl
      subst hr
      subst hc
      exact ⟨by simp, by simp⟩
    · rw [if_neg hc] at h
      cases hsp : splitFirstBar cs with
      | none =>
        rw [hsp] at h
        exact Option.noConfusion h
      | some p =>
        rw [hsp] at h
        injection h with h2
        have hl : c :: p.1 = l := congrArg Prod.fst h2
        have hr : p.2 = r := congrArg Prod.snd h2
        obtain ⟨hcs, hnb⟩ := ih p.1 p.2 hsp
        rw [← hl, ← hr]
        constructor
        · rw [hcs]
          simp
        · intro m
          rcases List.mem_cons.mp m with e | m2
          · exact hc e.symm
          · exact hnb m2

/-- Claim C7: on every file content, load behaves exactly as the spec
describes it: blank lines are skipped, each non-blank line is split on its
first bar when present (left part trimmed as text, right part trimmed as
author), a line without a bar becomes a quote with author Unknown, quotes
come in file order, and no line is ever rejected. -/
theorem load_matches_spec_model (content : Str) :
    parseQuotes content = loadSpecModel content := by
  unfold parseQuotes loadSpecModel
  apply List.filterMap_congr
  intro line _
  show lineToQuote line = _
  by_cases h0 : strip line = []
  · simp [lineToQuote, h0, List.isEmpty_iff]
  · have hne : (strip line).isEmpty = false := by
      cases hx : strip line with
      | nil => exact absurd hx h0
      | cons a b => rfl
    simp only [lineToQuote, hne, Bool.false_eq_true, if_false, if_neg h0]
    cases hsp : splitFirstBar (strip line) with
    | none =>
      have hnb : '|' ∉ strip line := splitFirstBar_none _ hsp
      simp only [parseRaw, hasBar_eq_false _ hnb, Bool.false_eq_true, if_false]
      rw [strip_idem, strip_unknown_lit]
    | some p =>
      obtain ⟨he, hnb⟩ := splitFirstBar_some _ p.1 p.2 (by rw [hsp])
      simp only [parseRaw, barLeft, barRight]
      rw [he, hasBar_append_bar, if_pos rfl, takeWhile_bar _ _ hnb,
        dropWhile_bar _ _ hnb]
      rfl

/-- Claim C8: save_quotes writes exactly one line per quote, in order, as
the spec describes: text, bar, author when the author is present and not
case-insensitively Unknown, otherwise the bare text; in particular a quote
with author Unknown is written as its text alone, with no trailing bar. -/
theorem save_matches_spec_model :
    (∀ qs : List Quote, save_quotes qs = saveSpecModel qs) ∧
    save_quotes [⟨"Just text, no pipe.".data, "Unknown".data⟩] =
      "Just text, no pipe.\n".data := by
  constructor
  · intro qs
    induction qs with
    | nil => rfl
    | cons q t ih =>
      show serializeLine q ++ save_quotes t = saveSpecModel (q :: t)
      rw [ih]
      unfold saveSpecModel
      rw [List.map_cons, List.flatten_cons]
      congr 1
  · decide
